import Mathlib

/-!
Verification of the image-hash algorithm layer (img-hash, src/alg/mod.rs).

Shallow embedding conventions:
* u8 sample buffers are modelled as lists of naturals; the 8-bit range
  (every element < 256) is carried as a hypothesis where a claim needs it.
* u32 arithmetic wraps modulo 2 ^ 32, matching the release-profile
  semantics of Rust integer arithmetic (a debug build would abort on
  overflow instead; either behaviour diverges from unbounded arithmetic
  at the same inputs).
* f32 sample values are idealised as exact rationals.  For the median
  path, which can observe NaN through the partial_cmp(..).unwrap()
  comparator, values are modelled by the type F32 (a rational or NaN)
  and the sort is threaded through Option: a None result models the
  panic of the unwrap on an incomparable pair.  The Rust sort
  (pattern-defeating quicksort) is modelled value-faithfully by
  insertion sort: for total comparators both produce the unique sorted
  value sequence, and both invoke the comparator on every element
  whenever the slice has at least two elements, and never on a
  singleton slice.
* Functions that can panic are embedded with Option / Except results
  (none / error marks the panic).
* Slice iterator combinators (chunks, step_by) panic in Rust when the
  chunk size / step is 0; the claims under verification always assume
  rowstride at least 1, and the embeddings return junk ([]) at 0.
-/

namespace ImgHash

/-- The modulus of 32-bit unsigned arithmetic. -/
def U32 : Nat := 4294967296

/-- Hash algorithms implemented by the crate (enum HashAlg). -/
inductive HashAlg : Type
| Mean
| Median
| Gradient
| VertGradient
| DoubleGradient
| Blockhash
deriving DecidableEq, Repr

/-- Bit order used when packing the boolean sequence (enum BitOrder). -/
inductive BitOrder : Type
| LsbFirst
| MsbFirst
deriving DecidableEq, Repr

/-- fn next_multiple_of_2(x: u32) -> u32 { (x + 1) & !1 }.
The mask !1u32 is 0xFFFFFFFE; Nat.land with it also discards bit 32,
which reproduces the u32 wrap-around of x + 1 at x = u32::MAX. -/
def next_multiple_of_2 (x : Nat) : Nat := (x + 1) &&& 0xFFFFFFFE

/-- fn next_multiple_of_4(x: u32) -> u32 { (x + 3) & !3 }. -/
def next_multiple_of_4 (x : Nat) : Nat := (x + 3) &&& 0xFFFFFFFC

/-- HashAlg::round_hash_size. -/
def round_hash_size (alg : HashAlg) (width height : Nat) : Nat × Nat :=
  match alg with
  | .DoubleGradient => (next_multiple_of_2 width, next_multiple_of_2 height)
  | .Blockhash => (next_multiple_of_4 width, next_multiple_of_4 height)
  | _ => (width, height)

/-- HashAlg::resize_dimensions.  The Blockhash arm executes
panic!("Blockhash algorithm does not resize"), modelled as none.
The increments are u32 additions and wrap modulo 2 ^ 32. -/
def resize_dimensions (alg : HashAlg) (width height : Nat) : Option (Nat × Nat) :=
  match alg with
  | .Mean => some (width, height)
  | .Median => some (width, height)
  | .Blockhash => none
  | .Gradient => some ((width + 1) % U32, height)
  | .VertGradient => some (width, (height + 1) % U32)
  | .DoubleGradient => some (width / 2 + 1, height / 2 + 1)

/-- fn mean_hash_u8: the sum is accumulated in u32 (wrapping modulo 2 ^ 32
in a release build), the length is cast to u32, the truncating quotient is
cast back to u8, and each sample is compared with sample >= mean. -/
def mean_hash_u8 (luma : List Nat) : List Bool :=
  let mean := (luma.sum % U32 / (luma.length % U32)) % 256
  luma.map (fun x => decide (mean ≤ x))

/-- fn mean_hash_f32 with f32 arithmetic idealised as exact rationals. -/
def mean_hash_f32 (luma : List ℚ) : List Bool :=
  let mean := luma.sum / (luma.length : ℚ)
  luma.map (fun x => decide (mean ≤ x))

/-- An f32 value as observed by the median path: NaN or a (finite) value
idealised as a rational. -/
inductive F32 : Type
| nan
| val (q : ℚ)
deriving DecidableEq, Repr

/-- f32::partial_cmp: None exactly when one operand is NaN. -/
def pcmp : F32 → F32 → Option Ordering
  | .val a, .val b => some (if a < b then .lt else if a = b then .eq else .gt)
  | _, _ => none

/-- One insertion step of the sort used by median_f32; the comparator
a.partial_cmp(b).unwrap() panics (none) on an incomparable pair. -/
def sortInsertM (x : F32) : List F32 → Option (List F32)
  | [] => some [x]
  | y :: ys => do
      let o ← pcmp x y
      if o = Ordering.gt then do
        let r ← sortInsertM x ys
        pure (y :: r)
      else
        pure (x :: y :: ys)

/-- sorted.sort_unstable_by(|a, b| a.partial_cmp(b).unwrap()) modelled as
an insertion sort over Option (see the file comment). -/
def sortM : List F32 → Option (List F32)
  | [] => some []
  | x :: xs => do
      let r ← sortM xs
      sortInsertM x r

/-- f32 addition lifted to F32 (NaN absorbing). -/
def addF32 : F32 → F32 → F32
  | .val a, .val b => .val (a + b)
  | _, _ => .nan

/-- Division by 2.0 lifted to F32. -/
def halfF32 : F32 → F32
  | .val a => .val (a / 2)
  | .nan => .nan

/-- fn median_f32: sort a copy, then take the middle element (odd length)
or the average of the two middle elements (even length).  None models the
panic of the comparator unwrap. -/
def median_f32 (numbers : List F32) : Option F32 := do
  let sorted ← sortM numbers
  let mid := sorted.length / 2
  if sorted.length % 2 = 0 then
    pure (halfF32 (addF32 (sorted.getD (mid - 1) .nan) (sorted.getD mid .nan)))
  else
    pure (sorted.getD mid .nan)

/-- The comparison x >= med on f32: false whenever either side is NaN. -/
def geF32 : F32 → F32 → Bool
  | .val a, .val b => decide (b ≤ a)
  | _, _ => false

/-- fn median_hash_f32: one boolean per sample, sample >= median. -/
def median_hash_f32 (luma : List F32) : Option (List Bool) :=
  (median_f32 luma).map (fun med => luma.map (fun x => geF32 x med))

/-- fn median_u8: the same sort (total on u8, so the unwrap never fires;
insertion sort produces the same value sequence as the Rust unstable
sort), middle element for odd lengths, and for even lengths the two
middle elements averaged in u16 and cast back to u8 (the cast is the
final % 256). -/
def median_u8 (numbers : List Nat) : Nat :=
  let sorted := numbers.insertionSort (· ≤ ·)
  let mid := sorted.length / 2
  if sorted.length % 2 = 0 then
    ((sorted.getD (mid - 1) 0 + sorted.getD mid 0) / 2) % 256
  else
    sorted.getD mid 0

/-- fn median_hash_u8. -/
def median_hash_u8 (luma : List Nat) : List Bool :=
  let med := median_u8 luma
  luma.map (fun x => decide (med ≤ x))

/-- fn gradient_hash_impl: zip the iterator shifted by one with itself
and emit last < this for each adjacent pair. -/
def gradient_hash_impl {α : Type} [LT α] [DecidableRel ((· < ·) : α → α → Prop)]
    (luma : List α) : List Bool :=
  ((luma.drop 1).zip luma).map (fun p => decide (p.2 < p.1))

/-- slice::chunks(rowstride): split into consecutive chunks, the last one
possibly shorter.  Rust panics at chunk size 0 (never reached by the
dispatcher, which passes a resize width); the embedding returns []. -/
def chunks {α : Type} (n : Nat) (l : List α) : List (List α) :=
  if _h : l.isEmpty || n == 0 then []
  else l.take n :: chunks n (l.drop n)
termination_by l.length
decreasing_by
  simp only [Bool.or_eq_true, List.isEmpty_iff, beq_iff_eq] at _h
  push_neg at _h
  have hl : 0 < l.length := List.length_pos.mpr _h.1
  have hn : 0 < n := Nat.pos_of_ne_zero _h.2
  simp only [List.length_drop]
  omega

/-- Iterator::step_by(n): the elements at indices 0, n, 2n, ....
Rust panics at step 0 (never reached); the embedding then degenerates to
the identity. -/
def stepBy {α : Type} (n : Nat) : List α → List α
  | [] => []
  | x :: xs => x :: stepBy n (xs.drop (n - 1))
termination_by l => l.length
decreasing_by
  simp only [List.length_drop, List.length_cons]
  omega

/-- fn gradient_hash: row-wise adjacent comparisons, rows independent. -/
def gradient_hash {α : Type} [LT α] [DecidableRel ((· < ·) : α → α → Prop)]
    (luma : List α) (rowstride : Nat) : List Bool :=
  (chunks rowstride luma).flatMap gradient_hash_impl

/-- fn vert_gradient_hash: for each column start, the column is the
sub-slice luma[col_start..] stepped by rowstride, and the same adjacent
comparison is applied to it. -/
def vert_gradient_hash {α : Type} [LT α] [DecidableRel ((· < ·) : α → α → Prop)]
    (luma : List α) (rowstride : Nat) : List Bool :=
  ((List.range rowstride).map (fun col_start => stepBy rowstride (luma.drop col_start))).flatMap
    gradient_hash_impl

/-- fn double_gradient_hash: the row-gradient booleans chained with the
column-gradient booleans. -/
def double_gradient_hash {α : Type} [LT α] [DecidableRel ((· < ·) : α → α → Prop)]
    (luma : List α) (rowstride : Nat) : List Bool :=
  gradient_hash luma rowstride ++ vert_gradient_hash luma rowstride

/-- The sample buffer handed to the comparison primitives (enum HashVals):
either f32 or u8 lumas. -/
inductive HashVals : Type
| Floats (fs : List ℚ)
| Bytes (bs : List Nat)

/-- enum CowImage: the preprocessing step returns a borrowed image when it
did not transform the data and an owned one otherwise. -/
inductive CowImage (Img : Type) : Type
| Borrowed (i : Img)
| Owned (i : Img)

/-- The image underlying either CowImage variant. -/
def CowImage.get {Img : Type} : CowImage Img → Img
  | .Borrowed i => i
  | .Owned i => i

/-- The collaborator operations hash_image can invoke, recorded in call
order so that control-flow claims can be stated. -/
inductive CallTag : Type
| gaussPreproc
| blockhashCall
| toGrayscale
| resizeDims
| calcHashVals
deriving DecidableEq, Repr

/-- The context capability (struct HashCtxt): configured dimensions and
bit order plus the preprocessing collaborators, which are abstract here
(their implementations live outside the algorithm layer). -/
structure HashCtxt (Img : Type) : Type where
  width : Nat
  height : Nat
  bit_order : BitOrder
  gauss_preproc : Img → CowImage Img
  to_grayscale : Img → Img
  calc_hash_vals : Img → Nat → Nat → HashVals

/-- The panics reachable from the dispatcher body: the resize_dimensions
panic, the comparator panic inside the median sort, and the
unreachable!() arm of the final match. -/
inductive HashErr : Type
| resizePanic
| sortPanic
| blockhashUnreachable
deriving DecidableEq, Repr

/-- HashAlg::hash_image.  The bit-set type is abstract (R), built by
from_bools; blockhashFn abstracts blockhash::blockhash.  The second
component records which collaborator operations ran, in order.  The
Floats buffers are NaN-free here (idealised rationals), so the median
arm extracts the sure value of the Option-valued median;
HashErr.blockhashUnreachable is the unreachable!() arm. -/
def hash_image {Img R : Type} (ctxt : HashCtxt Img)
    (blockhashFn : Img → Nat → Nat → BitOrder → R)
    (from_bools : List Bool → BitOrder → R)
    (alg : HashAlg) (image : Img) : Except HashErr R × List CallTag :=
  let post_gauss := ctxt.gauss_preproc image
  if alg = HashAlg.Blockhash then
    (match post_gauss with
     | .Borrowed img => Except.ok (blockhashFn img ctxt.width ctxt.height ctxt.bit_order)
     | .Owned img => Except.ok (blockhashFn img ctxt.width ctxt.height ctxt.bit_order),
     [CallTag.gaussPreproc, CallTag.blockhashCall])
  else
    let grayscale := ctxt.to_grayscale post_gauss.get
    match resize_dimensions alg ctxt.width ctxt.height with
    | none =>
        (Except.error HashErr.resizePanic,
         [CallTag.gaussPreproc, CallTag.toGrayscale, CallTag.resizeDims])
    | some (resize_width, _resize_height) =>
        let hash_vals := ctxt.calc_hash_vals grayscale resize_width _resize_height
        let rowstride := resize_width
        ((match alg, hash_vals with
          | .Mean, .Floats fs => Except.ok (from_bools (mean_hash_f32 fs) ctxt.bit_order)
          | .Mean, .Bytes bs => Except.ok (from_bools (mean_hash_u8 bs) ctxt.bit_order)
          | .Gradient, .Floats fs =>
              Except.ok (from_bools (gradient_hash fs rowstride) ctxt.bit_order)
          | .Gradient, .Bytes bs =>
              Except.ok (from_bools (gradient_hash bs rowstride) ctxt.bit_order)
          | .VertGradient, .Floats fs =>
              Except.ok (from_bools (vert_gradient_hash fs rowstride) ctxt.bit_order)
          | .VertGradient, .Bytes bs =>
              Except.ok (from_bools (vert_gradient_hash bs rowstride) ctxt.bit_order)
          | .DoubleGradient, .Floats fs =>
              Except.ok (from_bools (double_gradient_hash fs rowstride) ctxt.bit_order)
          | .DoubleGradient, .Bytes bs =>
              Except.ok (from_bools (double_gradient_hash bs rowstride) ctxt.bit_order)
          | .Median, .Floats fs =>
              match median_hash_f32 (fs.map F32.val) with
              | some bools => Except.ok (from_bools bools ctxt.bit_order)
              | none => Except.error HashErr.sortPanic
          | .Median, .Bytes bs => Except.ok (from_bools (median_hash_u8 bs) ctxt.bit_order)
          | .Blockhash, _ => Except.error HashErr.blockhashUnreachable),
         [CallTag.gaussPreproc, CallTag.toGrayscale, CallTag.resizeDims, CallTag.calcHashVals])

/-! Basic unfolding lemmas for the recursive combinators. -/

theorem chunks_nil {α : Type} (n : Nat) : chunks n ([] : List α) = [] := by
  rw [chunks]
  rfl

theorem chunks_cons {α : Type} (n : Nat) (l : List α) (hn : n ≠ 0) (hl : l ≠ []) :
    chunks n l = l.take n :: chunks n (l.drop n) := by
  rw [chunks]
  simp [hn, hl]

theorem stepBy_nil {α : Type} (n : Nat) : stepBy n ([] : List α) = [] := by
  rw [stepBy]

theorem stepBy_cons {α : Type} (n : Nat) (x : α) (xs : List α) :
    stepBy n (x :: xs) = x :: stepBy n (xs.drop (n - 1)) := by
  rw [stepBy]

section GradientLemmas

variable {α : Type} [LT α] [DecidableRel ((· < ·) : α → α → Prop)]

theorem gradient_hash_impl_cons2 (x y : α) (t : List α) :
    gradient_hash_impl (x :: y :: t) = decide (x < y) :: gradient_hash_impl (y :: t) := rfl

theorem gradient_hash_impl_eq_range (l : List α) (d : α) :
    gradient_hash_impl l =
      (List.range (l.length - 1)).map (fun i => decide (l.getD i d < l.getD (i + 1) d)) := by
  induction l with
  | nil => rfl
  | cons x xs ih =>
    cases xs with
    | nil => rfl
    | cons y t =>
      rw [gradient_hash_impl_cons2, ih]
      have hlen : (x :: y :: t).length - 1 = ((y :: t).length - 1) + 1 := by
        simp
      rw [hlen, List.range_succ_eq_map]
      simp only [List.map_cons, List.map_map]
      congr 1

theorem flatMap_congr {β γ : Type} {l : List β} {f g : β → List γ}
    (h : ∀ a ∈ l, f a = g a) : l.flatMap f = l.flatMap g := by
  induction l with
  | nil => rfl
  | cons x xs ih =>
    rw [List.flatMap_cons, List.flatMap_cons, h x (by simp), ih]
    intro a ha
    exact h a (by simp [ha])

theorem sum_map_const_nat {β : Type} (l : List β) (c : Nat) :
    (l.map (fun _ => c)).sum = l.length * c := by
  induction l with
  | nil => simp
  | cons x xs ih => simp [ih, Nat.succ_mul, Nat.add_comm]

/-- Row decomposition of gradient_hash: on a buffer of exactly R rows of
rowstride s each, the output is, row by row, the adjacent-pair
comparisons within that row. -/
theorem gradient_hash_eq_range (l : List α) (s R : Nat) (d : α)
    (hs : 1 ≤ s) (hl : l.length = R * s) :
    gradient_hash l s = (List.range R).flatMap (fun r =>
      (List.range (s - 1)).map
        (fun i => decide (l.getD (r * s + i) d < l.getD (r * s + i + 1) d))) := by
  induction R generalizing l with
  | zero =>
    have : l = [] := List.length_eq_zero.mp (by simpa using hl)
    subst this
    rw [gradient_hash, chunks_nil]
    rfl
  | succ R ih =>
    have hsm : (R + 1) * s = R * s + s := by ring
    have hslen : s ≤ l.length := by
      rw [hl]
      omega
    have hlne : l ≠ [] := by
      intro hnil
      rw [hnil] at hslen
      simp only [List.length_nil, Nat.le_zero] at hslen
      omega
    rw [gradient_hash, chunks_cons s l (by omega) hlne, List.flatMap_cons]
    have hdrop : (l.drop s).length = R * s := by
      simp only [List.length_drop, hl]
      omega
    have ihd := ih (l.drop s) hdrop
    rw [gradient_hash] at ihd
    rw [ihd, List.range_succ_eq_map, List.flatMap_cons, List.flatMap_map]
    congr 1
    · -- head row: the first s samples
      rw [gradient_hash_impl_eq_range (l.take s) d]
      have htl : (l.take s).length = s := by
        rw [List.length_take]
        omega
      rw [htl]
      apply List.map_congr_left
      intro i hi
      rw [List.mem_range] at hi
      have h1 : (l.take s).getD i d = l.getD i d := by
        rw [List.getD_eq_getElem?_getD, List.getD_eq_getElem?_getD, List.getElem?_take,
          if_pos (by omega)]
      have h2 : (l.take s).getD (i + 1) d = l.getD (i + 1) d := by
        rw [List.getD_eq_getElem?_getD, List.getD_eq_getElem?_getD, List.getElem?_take,
          if_pos (by omega)]
      rw [h1, h2]
      simp
    · -- remaining rows, shifted by one row
      apply flatMap_congr
      intro r _
      apply List.map_congr_left
      intro i _
      have hidx1 : (r + 1) * s + i = s + (r * s + i) := by ring
      have hidx2 : (r + 1) * s + i + 1 = s + (r * s + i + 1) := by ring
      have h1 : (l.drop s).getD (r * s + i) d = l.getD ((r + 1) * s + i) d := by
        rw [List.getD_eq_getElem?_getD, List.getD_eq_getElem?_getD, List.getElem?_drop, hidx1]
      have h2 : (l.drop s).getD (r * s + i + 1) d = l.getD ((r + 1) * s + i + 1) d := by
        rw [List.getD_eq_getElem?_getD, List.getD_eq_getElem?_getD, List.getElem?_drop, hidx2]
      rw [h1, h2]

theorem gradient_hash_length (l : List α) (s R : Nat) (d : α)
    (hs : 1 ≤ s) (hl : l.length = R * s) :
    (gradient_hash l s).length = R * (s - 1) := by
  rw [gradient_hash_eq_range l s R d hs hl, List.length_flatMap]
  have : (List.range R).map (List.length ∘ fun r =>
      (List.range (s - 1)).map
        (fun i => decide (l.getD (r * s + i) d < l.getD (r * s + i + 1) d))) =
      (List.range R).map (fun _ => s - 1) := by
    apply List.map_congr_left
    intro r _
    simp
  rw [this, sum_map_const_nat]
  simp

end GradientLemmas

theorem getD_map_range {β : Type} (R i : Nat) (f : Nat → β) (d : β) (hi : i < R) :
    ((List.range R).map f).getD i d = f i := by
  rw [List.getD_eq_getElem?_getD, List.getElem?_map, List.getElem?_range hi]
  rfl

theorem stepBy_getElem? {α : Type} (n : Nat) (hn : 1 ≤ n) (l : List α) (i : Nat) :
    (stepBy n l)[i]? = l[i * n]? := by
  induction i generalizing l with
  | zero =>
    cases l with
    | nil =>
      rw [stepBy_nil]
      simp
    | cons x xs =>
      rw [stepBy_cons]
      simp
  | succ i ih =>
    cases l with
    | nil =>
      rw [stepBy_nil]
      simp
    | cons x xs =>
      have h1 : (i + 1) * n = i * n + n := by ring
      have hidx : (i + 1) * n = ((n - 1) + i * n) + 1 := by omega
      rw [stepBy_cons, List.getElem?_cons_succ, ih (xs.drop (n - 1)), List.getElem?_drop, hidx,
        List.getElem?_cons_succ]

/-- The column starting at index j of a buffer of R rows of stride s,
as extracted by the step_by iterator, is the list of samples at indices
i * s + j for i < R. -/
theorem stepBy_drop_eq_col {α : Type} (l : List α) (s R j : Nat) (d : α)
    (hs : 1 ≤ s) (hj : j < s) (hl : l.length = R * s) :
    stepBy s (l.drop j) = (List.range R).map (fun i => l.getD (i * s + j) d) := by
  apply List.ext_getElem?
  intro i
  have hc : j + i * s = i * s + j := by ring
  rw [stepBy_getElem? s hs, List.getElem?_drop, hc, List.getElem?_map]
  by_cases hi : i < R
  · have h1 : (i + 1) * s = i * s + s := by ring
    have h2 : (i + 1) * s ≤ R * s := Nat.mul_le_mul (by omega) (Nat.le_refl s)
    have hb : i * s + j < l.length := by omega
    rw [List.getElem?_range hi, List.getElem?_eq_getElem hb]
    simp only [Option.map_some']
    rw [List.getD_eq_getElem l d hb]
  · have h2 : R * s ≤ i * s := Nat.mul_le_mul (by omega) (Nat.le_refl s)
    have hb : l.length ≤ i * s + j := by omega
    have hr : (List.range R)[i]? = none := by
      apply List.getElem?_eq_none
      simp only [List.length_range]
      omega
    rw [List.getElem?_eq_none hb, hr]
    rfl

section VertLemmas

variable {α : Type} [LT α] [DecidableRel ((· < ·) : α → α → Prop)]

/-- Column decomposition of vert_gradient_hash: columns are scanned left
to right, and inside each column consecutive vertical pairs are compared
top to bottom. -/
theorem vert_gradient_hash_eq_range (l : List α) (s R : Nat) (d : α)
    (hs : 1 ≤ s) (hl : l.length = R * s) :
    vert_gradient_hash l s = (List.range s).flatMap (fun j =>
      (List.range (R - 1)).map
        (fun i => decide (l.getD (i * s + j) d < l.getD ((i + 1) * s + j) d))) := by
  rw [vert_gradient_hash, List.flatMap_map]
  apply flatMap_congr
  intro j hj
  rw [List.mem_range] at hj
  rw [stepBy_drop_eq_col l s R j d hs hj hl, gradient_hash_impl_eq_range _ d]
  simp only [List.length_map, List.length_range]
  apply List.map_congr_left
  intro i hi
  rw [List.mem_range] at hi
  rw [getD_map_range R i _ d (by omega), getD_map_range R (i + 1) _ d (by omega)]

theorem vert_gradient_hash_length (l : List α) (s R : Nat) (d : α)
    (hs : 1 ≤ s) (hl : l.length = R * s) :
    (vert_gradient_hash l s).length = s * (R - 1) := by
  rw [vert_gradient_hash_eq_range l s R d hs hl, List.length_flatMap]
  have hconst : (List.range s).map (List.length ∘ fun j =>
      (List.range (R - 1)).map
        (fun i => decide (l.getD (i * s + j) d < l.getD ((i + 1) * s + j) d))) =
      (List.range s).map (fun _ => R - 1) := by
    apply List.map_congr_left
    intro j _
    simp
  rw [hconst, sum_map_const_nat]
  simp

end VertLemmas

/-- Indexing into the concatenation of n blocks of uniform length B:
position j * B + k falls in block j at offset k. -/
theorem flatMap_range_getElem? {β : Type} (f : Nat → List β) (n B j k : Nat)
    (hf : ∀ r, r < n → (f r).length = B) (hj : j < n) (hk : k < B) :
    ((List.range n).flatMap f)[j * B + k]? = (f j)[k]? := by
  induction n generalizing f j with
  | zero => omega
  | succ n ih =>
    rw [List.range_succ_eq_map, List.flatMap_cons, List.flatMap_map]
    cases j with
    | zero =>
      rw [List.getElem?_append, hf 0 (by omega), if_pos (by omega)]
      have : 0 * B + k = k := by ring
      rw [this]
    | succ j =>
      rw [List.getElem?_append, hf 0 (by omega)]
      have h1 : (j + 1) * B = j * B + B := by ring
      rw [if_neg (by omega)]
      have hidx : (j + 1) * B + k - B = j * B + k := by omega
      rw [hidx]
      have ihs := ih (fun r => f (r + 1)) j (fun r hr => hf (r + 1) (by omega)) (by omega)
      simpa [Nat.succ_eq_add_one] using ihs

/-- Claim C3: for every buffer whose length equals R * rowstride with
R >= 1 and rowstride >= 1, gradient_hash emits, for each of the R rows
taken in order and independently (no comparison crosses a row boundary),
one boolean per adjacent pair within the row equal to previous < current,
i.e. rowstride - 1 booleans per row and R * (rowstride - 1) in total. -/
theorem gradient_hash_spec {α : Type} [LT α] [DecidableRel ((· < ·) : α → α → Prop)]
    (l : List α) (s R : Nat) (d : α) (hR : 1 ≤ R) (hs : 1 ≤ s) (hl : l.length = R * s) :
    gradient_hash l s = (List.range R).flatMap (fun r =>
      (List.range (s - 1)).map
        (fun i => decide (l.getD (r * s + i) d < l.getD (r * s + i + 1) d))) ∧
    (gradient_hash l s).length = R * (s - 1) :=
  ⟨gradient_hash_eq_range l s R d hs hl, gradient_hash_length l s R d hs hl⟩

/-- Witness for C3: the single-row buffer from the spec scenario. -/
theorem gradient_hash_spec_witness :
    gradient_hash ([10, 20, 30, 40, 50, 60, 70, 80] : List Nat) 8 =
      (List.range 1).flatMap (fun r =>
        (List.range (8 - 1)).map
          (fun i => decide (List.getD [10, 20, 30, 40, 50, 60, 70, 80] (r * 8 + i) 0 <
            List.getD [10, 20, 30, 40, 50, 60, 70, 80] (r * 8 + i + 1) 0))) ∧
    (gradient_hash ([10, 20, 30, 40, 50, 60, 70, 80] : List Nat) 8).length = 1 * (8 - 1) :=
  gradient_hash_spec [10, 20, 30, 40, 50, 60, 70, 80] 8 1 0 (by decide) (by decide) (by decide)

/-- Claim C4: for every buffer of R rows of rowstride samples,
vert_gradient_hash iterates columns left to right and inside each column
top to bottom (consecutive column elements are rowstride apart), and the
output bit at position (column j, pair i) is
buf[(i-1) * rowstride + j] < buf[i * rowstride + j]; the total output
length is rowstride * (R - 1). -/
theorem vert_gradient_hash_spec {α : Type} [LT α] [DecidableRel ((· < ·) : α → α → Prop)]
    (l : List α) (s R : Nat) (d : α) (hR : 1 ≤ R) (hs : 1 ≤ s) (hl : l.length = R * s) :
    vert_gradient_hash l s = (List.range s).flatMap (fun j =>
      (List.range (R - 1)).map
        (fun i => decide (l.getD (i * s + j) d < l.getD ((i + 1) * s + j) d))) ∧
    (vert_gradient_hash l s).length = s * (R - 1) ∧
    (∀ j i, j < s → 1 ≤ i → i < R →
      (vert_gradient_hash l s)[j * (R - 1) + (i - 1)]? =
        some (decide (l.getD ((i - 1) * s + j) d < l.getD (i * s + j) d))) := by
  refine ⟨vert_gradient_hash_eq_range l s R d hs hl,
    vert_gradient_hash_length l s R d hs hl, ?_⟩
  intro j i hj hi1 hiR
  rw [vert_gradient_hash_eq_range l s R d hs hl]
  rw [flatMap_range_getElem? _ s (R - 1) j (i - 1) (fun r _ => by simp) hj (by omega)]
  rw [List.getElem?_map, List.getElem?_range (show i - 1 < R - 1 by omega)]
  simp only [Option.map_some']
  have hi : i - 1 + 1 = i := by omega
  rw [hi]

/-- Witness for C4: a 2-row buffer of stride 3. -/
theorem vert_gradient_hash_spec_witness :
    vert_gradient_hash ([1, 2, 3, 6, 5, 4] : List Nat) 3 =
      (List.range 3).flatMap (fun j =>
        (List.range (2 - 1)).map
          (fun i => decide (List.getD [1, 2, 3, 6, 5, 4] (i * 3 + j) 0 <
            List.getD [1, 2, 3, 6, 5, 4] ((i + 1) * 3 + j) 0))) ∧
    (vert_gradient_hash ([1, 2, 3, 6, 5, 4] : List Nat) 3).length = 3 * (2 - 1) ∧
    (∀ j i, j < 3 → 1 ≤ i → i < 2 →
      (vert_gradient_hash ([1, 2, 3, 6, 5, 4] : List Nat) 3)[j * (2 - 1) + (i - 1)]? =
        some (decide (List.getD [1, 2, 3, 6, 5, 4] ((i - 1) * 3 + j) 0 <
          List.getD [1, 2, 3, 6, 5, 4] (i * 3 + j) 0))) :=
  vert_gradient_hash_spec [1, 2, 3, 6, 5, 4] 3 2 0 (by decide) (by decide) (by decide)

/-- Claim C5: for every sample buffer and every rowstride, the sequence
produced by double_gradient_hash is exactly the sequence of gradient_hash
immediately followed by the sequence of vert_gradient_hash, each computed
independently on the same buffer (stated for both sample domains the
dispatcher uses: 8-bit and floating-point lumas). -/
theorem double_gradient_hash_spec :
    (∀ (l : List Nat) (s : Nat),
      double_gradient_hash l s = gradient_hash l s ++ vert_gradient_hash l s) ∧
    (∀ (q : List ℚ) (s : Nat),
      double_gradient_hash q s = gradient_hash q s ++ vert_gradient_hash q s) :=
  ⟨fun _ _ => rfl, fun _ _ => rfl⟩

/-! u32 mask lemmas: the bitwise and with !1 (resp. !3) clears the low
bit(s), i.e. rounds down to a multiple of 2 (resp. 4), after reducing
modulo 2 ^ 32. -/

theorem testBit_mask2 (i : Nat) :
    (0xFFFFFFFE : Nat).testBit i = (decide (1 ≤ i) && decide (i < 32)) := by
  by_cases h : i < 32
  · exact (by decide : ∀ j < 32,
      Nat.testBit 0xFFFFFFFE j = (decide (1 ≤ j) && decide (j < 32))) i h
  · have hlt : (0xFFFFFFFE : Nat) < 2 ^ i := by
      calc (0xFFFFFFFE : Nat) < 2 ^ 32 := by norm_num
      _ ≤ 2 ^ i := Nat.pow_le_pow_right (by norm_num) (by omega)
    rw [Nat.testBit_lt_two_pow hlt]
    simp [h]

theorem testBit_mask4 (i : Nat) :
    (0xFFFFFFFC : Nat).testBit i = (decide (2 ≤ i) && decide (i < 32)) := by
  by_cases h : i < 32
  · exact (by decide : ∀ j < 32,
      Nat.testBit 0xFFFFFFFC j = (decide (2 ≤ j) && decide (j < 32))) i h
  · have hlt : (0xFFFFFFFC : Nat) < 2 ^ i := by
      calc (0xFFFFFFFC : Nat) < 2 ^ 32 := by norm_num
      _ ≤ 2 ^ i := Nat.pow_le_pow_right (by norm_num) (by omega)
    rw [Nat.testBit_lt_two_pow hlt]
    simp [h]

theorem land_mask2 (y : Nat) (hy : y < U32) : y &&& 0xFFFFFFFE = 2 * (y / 2) := by
  apply Nat.eq_of_testBit_eq
  intro i
  rw [Nat.testBit_land, testBit_mask2]
  cases i with
  | zero =>
    simp [Nat.testBit_zero, Nat.mul_mod_right]
  | succ i =>
    by_cases h : i + 1 < 32
    · have h2 : (2 * (y / 2)).testBit (i + 1) = (y / 2).testBit i := by
        rw [Nat.testBit_succ]
        congr 1
        omega
      rw [h2, Nat.testBit_succ]
      simp [h]
    · have hyb : y.testBit (i + 1) = false := by
        apply Nat.testBit_lt_two_pow
        calc y < U32 := hy
        _ = 2 ^ 32 := by norm_num [U32]
        _ ≤ 2 ^ (i + 1) := Nat.pow_le_pow_right (by norm_num) (by omega)
      have hrb : (2 * (y / 2)).testBit (i + 1) = false := by
        apply Nat.testBit_lt_two_pow
        calc 2 * (y / 2) = y / 2 * 2 := by ring
        _ ≤ y := Nat.div_mul_le_self y 2
        _ < 2 ^ 32 := by norm_num [U32] at hy; omega
        _ ≤ 2 ^ (i + 1) := Nat.pow_le_pow_right (by norm_num) (by omega)
      rw [hyb, hrb]
      simp [h]

theorem land_mask4 (y : Nat) (hy : y < U32) : y &&& 0xFFFFFFFC = 4 * (y / 4) := by
  apply Nat.eq_of_testBit_eq
  intro i
  rw [Nat.testBit_land, testBit_mask4]
  match i with
  | 0 =>
    have hm : 4 * (y / 4) % 2 = 0 := by omega
    simp [Nat.testBit_zero, hm]
  | 1 =>
    have h1 : (4 * (y / 4)).testBit 1 = false := by
      rw [Nat.testBit_succ]
      have hq : 4 * (y / 4) / 2 = 2 * (y / 4) := by omega
      rw [hq]
      simp [Nat.testBit_zero, Nat.mul_mod_right]
    rw [h1]
    simp
  | (i + 2) =>
    by_cases h : i + 2 < 32
    · have h2 : (4 * (y / 4)).testBit (i + 2) = (y / 4).testBit i := by
        rw [Nat.testBit_succ, Nat.testBit_succ]
        congr 1
        omega
      have h3 : y.testBit (i + 2) = (y / 4).testBit i := by
        rw [Nat.testBit_succ, Nat.testBit_succ]
        congr 1
        omega
      rw [h2, h3]
      simp [h]
    · have hyb : y.testBit (i + 2) = false := by
        apply Nat.testBit_lt_two_pow
        calc y < U32 := hy
        _ = 2 ^ 32 := by norm_num [U32]
        _ ≤ 2 ^ (i + 2) := Nat.pow_le_pow_right (by norm_num) (by omega)
      have hrb : (4 * (y / 4)).testBit (i + 2) = false := by
        apply Nat.testBit_lt_two_pow
        calc 4 * (y / 4) = y / 4 * 4 := by ring
        _ ≤ y := Nat.div_mul_le_self y 4
        _ < 2 ^ 32 := by norm_num [U32] at hy; omega
        _ ≤ 2 ^ (i + 2) := Nat.pow_le_pow_right (by norm_num) (by omega)
      rw [hyb, hrb]
      simp [h]

theorem next_multiple_of_2_round (x : Nat) (hx : x ≤ U32 - 2) :
    2 ∣ next_multiple_of_2 x ∧ x ≤ next_multiple_of_2 x ∧ next_multiple_of_2 x < x + 2 := by
  have hU : U32 = 4294967296 := rfl
  have h := land_mask2 (x + 1) (by omega)
  rw [next_multiple_of_2, h]
  have hdm := Nat.div_add_mod (x + 1) 2
  have hm2 : (x + 1) % 2 < 2 := Nat.mod_lt _ (by norm_num)
  refine ⟨⟨(x + 1) / 2, rfl⟩, by omega, by omega⟩

theorem next_multiple_of_4_round (x : Nat) (hx : x ≤ U32 - 4) :
    4 ∣ next_multiple_of_4 x ∧ x ≤ next_multiple_of_4 x ∧ next_multiple_of_4 x < x + 4 := by
  have hU : U32 = 4294967296 := rfl
  have h := land_mask4 (x + 3) (by omega)
  rw [next_multiple_of_4, h]
  have hdm := Nat.div_add_mod (x + 3) 4
  have hm4 : (x + 3) % 4 < 4 := Nat.mod_lt _ (by norm_num)
  refine ⟨⟨(x + 3) / 4, rfl⟩, by omega, by omega⟩

/-- Counterexample to claim C7 as stated: at width u32::MAX the rounded
dimension for DoubleGradient is not the least even number at least the
input (the u32 increment wraps, and a debug build would panic), so
round_hash_size is not total in the claimed sense on all of u32. -/
theorem round_hash_size_overflow :
    ¬ (4294967295 ≤ (round_hash_size HashAlg.DoubleGradient 4294967295 4294967295).1) := by
  decide

/-- Claim C7 (amended): round_hash_size is pure and total, returns the
dimensions unchanged for Mean, Median, Gradient and VertGradient, and
rounds each dimension up to the nearest even number (DoubleGradient)
resp. nearest multiple of 4 (Blockhash) whenever that rounded value is
still representable in u32 (x <= 2^32 - 2 resp. x <= 2^32 - 4); at
larger inputs the u32 increment wraps (release) or panics (debug). -/
theorem round_hash_size_spec (w h x : Nat) :
    round_hash_size HashAlg.Mean w h = (w, h) ∧
    round_hash_size HashAlg.Median w h = (w, h) ∧
    round_hash_size HashAlg.Gradient w h = (w, h) ∧
    round_hash_size HashAlg.VertGradient w h = (w, h) ∧
    round_hash_size HashAlg.DoubleGradient w h =
      (next_multiple_of_2 w, next_multiple_of_2 h) ∧
    round_hash_size HashAlg.Blockhash w h =
      (next_multiple_of_4 w, next_multiple_of_4 h) ∧
    (x ≤ U32 - 2 →
      2 ∣ next_multiple_of_2 x ∧ x ≤ next_multiple_of_2 x ∧ next_multiple_of_2 x < x + 2) ∧
    (x ≤ U32 - 4 →
      4 ∣ next_multiple_of_4 x ∧ x ≤ next_multiple_of_4 x ∧ next_multiple_of_4 x < x + 4) :=
  ⟨rfl, rfl, rfl, rfl, rfl, rfl, next_multiple_of_2_round x, next_multiple_of_4_round x⟩

/-- Witness for C7 at concrete inputs. -/
theorem round_hash_size_spec_witness :
    round_hash_size HashAlg.DoubleGradient 5 6 = (next_multiple_of_2 5, next_multiple_of_2 6) ∧
    2 ∣ next_multiple_of_2 7 ∧ 7 ≤ next_multiple_of_2 7 ∧ next_multiple_of_2 7 < 7 + 2 ∧
    4 ∣ next_multiple_of_4 7 ∧ 7 ≤ next_multiple_of_4 7 ∧ next_multiple_of_4 7 < 7 + 4 := by
  have h := round_hash_size_spec 5 6 7
  have h2 := h.2.2.2.2.2.2.1 (by decide)
  have h4 := h.2.2.2.2.2.2.2 (by decide)
  exact ⟨h.2.2.2.2.1, h2.1, h2.2.1, h2.2.2, h4.1, h4.2.1, h4.2.2⟩

/-- Counterexample to claim C6 as stated: at width u32::MAX the Gradient
resize width W + 1 is not representable in u32; the addition wraps to 0
(release) or panics (debug), so the returned pair is not (W + 1, H). -/
theorem resize_dimensions_gradient_overflow :
    resize_dimensions HashAlg.Gradient 4294967295 7 ≠ some (4294967295 + 1, 7) := by
  decide

/-- Claim C6 (amended): resize_dimensions returns (W, H) for Mean and
Median, (W + 1, H) for Gradient and (W, H + 1) for VertGradient whenever
the increment does not overflow u32, (W / 2 + 1, H / 2 + 1) for
DoubleGradient, and fails loudly (panics, modelled as none) for
Blockhash. -/
theorem resize_dimensions_spec (w h : Nat) :
    resize_dimensions HashAlg.Mean w h = some (w, h) ∧
    resize_dimensions HashAlg.Median w h = some (w, h) ∧
    (w + 1 < U32 → resize_dimensions HashAlg.Gradient w h = some (w + 1, h)) ∧
    (h + 1 < U32 → resize_dimensions HashAlg.VertGradient w h = some (w, h + 1)) ∧
    resize_dimensions HashAlg.DoubleGradient w h = some (w / 2 + 1, h / 2 + 1) ∧
    resize_dimensions HashAlg.Blockhash w h = none := by
  refine ⟨rfl, rfl, ?_, ?_, rfl, rfl⟩
  · intro hw
    simp [resize_dimensions, Nat.mod_eq_of_lt hw]
  · intro hh
    simp [resize_dimensions, Nat.mod_eq_of_lt hh]

/-- Witness for C6 at concrete inputs. -/
theorem resize_dimensions_spec_witness :
    resize_dimensions HashAlg.Gradient 8 8 = some (8 + 1, 8) ∧
    resize_dimensions HashAlg.VertGradient 8 8 = some (8, 8 + 1) ∧
    resize_dimensions HashAlg.Blockhash 8 8 = none := by
  have h := resize_dimensions_spec 8 8
  exact ⟨h.2.2.1 (by decide), h.2.2.2.1 (by decide), h.2.2.2.2.2⟩

theorem sum_replicate_mul (n x : Nat) : (List.replicate n x).sum = n * x := by
  induction n with
  | zero => simp
  | succ n ih =>
    rw [List.replicate_succ, List.sum_cons, ih, Nat.succ_mul]
    omega

/-- Counterexample to claim C1 as stated: on the 8-bit buffer
0 :: 16843010 copies of 255 the sample total 4294967550 exceeds u32::MAX,
so the u32 accumulator wraps to 254 (a debug build would panic), the
computed mean truncates to 0, and the first emitted boolean is true,
whereas the truncating division of the untruncated sum by the length is
254 and the claim demands false there. -/
theorem mean_hash_u8_sum_wrap_counterexample :
    mean_hash_u8 (0 :: List.replicate 16843010 255) ≠
      (0 :: List.replicate 16843010 255).map
        (fun x => decide ((0 :: List.replicate 16843010 255).sum /
          (0 :: List.replicate 16843010 255).length ≤ x)) := by
  have hsum : (0 :: List.replicate 16843010 255).sum = 4294967550 := by
    rw [List.sum_cons, sum_replicate_mul]
  have hlen : (0 :: List.replicate 16843010 255).length = 16843011 := by
    rw [List.length_cons, List.length_replicate]
  intro hcontra
  have hhead := congrArg List.head? hcontra
  simp only [mean_hash_u8, List.head?_map, List.head?_cons, Option.map_some'] at hhead
  rw [hsum, hlen] at hhead
  norm_num [U32] at hhead

/-- Claim C1 (amended): for every non-empty 8-bit sample buffer whose
total fits in u32 (and whose length does), mean_hash_u8 computes the mean
as the truncating integer division of the sum by the length and emits one
boolean per sample, in order, equal to sample >= mean; mean_hash_f32 does
the same with the exact average; on [10,20,30,40,50,60,70,80] the mean is
45 and the booleans are FFFFTTTT.  (Without the overflow side condition
the u32 sum accumulator wraps, see the counterexample.) -/
theorem mean_hash_spec (l : List Nat) (hne : l ≠ []) (h8 : ∀ x ∈ l, x < 256)
    (hsum : l.sum < U32) (hlen : l.length < U32) :
    mean_hash_u8 l = l.map (fun x => decide (l.sum / l.length ≤ x)) ∧
    (∀ q : List ℚ, mean_hash_f32 q = q.map (fun x => decide (q.sum / (q.length : ℚ) ≤ x))) ∧
    mean_hash_u8 [10, 20, 30, 40, 50, 60, 70, 80] =
      [false, false, false, false, true, true, true, true] ∧
    ([10, 20, 30, 40, 50, 60, 70, 80] : List Nat).sum / 8 = 45 := by
  refine ⟨?_, fun q => rfl, by decide, by decide⟩
  have hlpos : 0 < l.length := List.length_pos.mpr hne
  have hle : l.sum ≤ l.length * 255 := by
    have hs := List.sum_le_card_nsmul l 255 (fun x hx => by have := h8 x hx; omega)
    simpa [smul_eq_mul] using hs
  have hmean : l.sum / l.length ≤ 255 := by
    have h255 : l.length * 255 / l.length = 255 := Nat.mul_div_cancel_left 255 hlpos
    calc l.sum / l.length ≤ l.length * 255 / l.length := Nat.div_le_div_right hle
    _ = 255 := h255
  simp only [mean_hash_u8]
  rw [Nat.mod_eq_of_lt hsum, Nat.mod_eq_of_lt hlen, Nat.mod_eq_of_lt (by omega)]

/-- Witness for C1 on the spec scenario buffer. -/
theorem mean_hash_spec_witness :
    mean_hash_u8 [10, 20, 30, 40, 50, 60, 70, 80] =
      [false, false, false, false, true, true, true, true] :=
  (mean_hash_spec [10, 20, 30, 40, 50, 60, 70, 80]
    (by decide) (by decide) (by decide) (by decide)).2.2.1

/-! Median machinery: the Option-threaded insertion sort agrees with the
pure insertion sort on NaN-free data, succeeds exactly when no comparator
call hits NaN, and the median is read off the sorted copy. -/

theorem sortInsertM_map_val (x : ℚ) (m : List ℚ) :
    sortInsertM (F32.val x) (m.map F32.val) =
      some ((List.orderedInsert (· ≤ ·) x m).map F32.val) := by
  induction m with
  | nil => rfl
  | cons y ys ih =>
    rcases lt_trichotomy x y with h | h | h
    · have hle : x ≤ y := le_of_lt h
      simp [sortInsertM, pcmp, h, List.orderedInsert, hle]
    · subst h
      simp [sortInsertM, pcmp, List.orderedInsert, lt_irrefl]
    · have hnle : ¬ x ≤ y := not_le.mpr h
      have hnlt : ¬ x < y := not_lt.mpr (le_of_lt h)
      have hne : x ≠ y := ne_of_gt h
      simp [sortInsertM, pcmp, hnlt, hne, List.orderedInsert, hnle, ih]

theorem sortM_map_val (q : List ℚ) :
    sortM (q.map F32.val) = some ((q.insertionSort (· ≤ ·)).map F32.val) := by
  induction q with
  | nil => rfl
  | cons x xs ih =>
    simp [sortM, ih, sortInsertM_map_val, List.insertionSort]

theorem getD_mem_of_lt {β : Type} (m : List β) (d : β) (i : Nat) (hi : i < m.length) :
    m.getD i d ∈ m := by
  rw [List.getD_eq_getElem m d hi]
  exact List.getElem_mem hi

theorem getD_map_val (m : List ℚ) (i : Nat) (hi : i < m.length) :
    (m.map F32.val).getD i F32.nan = F32.val (m.getD i 0) := by
  have hi2 : i < (m.map F32.val).length := by simpa using hi
  rw [List.getD_eq_getElem _ _ hi2, List.getD_eq_getElem m 0 hi]
  simp

/-- The u8 median equals the middle of any sorted permutation of the
buffer (the sorted order of a total order is unique). -/
theorem median_u8_eq (l : List Nat) (hne : l ≠ []) (h8 : ∀ x ∈ l, x < 256)
    (m : List Nat) (hp : m.Perm l) (hs : m.Sorted (· ≤ ·)) :
    median_u8 l = (if l.length % 2 = 0 then
      (m.getD (l.length / 2 - 1) 0 + m.getD (l.length / 2) 0) / 2
    else m.getD (l.length / 2) 0) := by
  have hm : m = l.insertionSort (· ≤ ·) :=
    List.eq_of_perm_of_sorted (hp.trans (List.perm_insertionSort (· ≤ ·) l).symm) hs
      (List.sorted_insertionSort (· ≤ ·) l)
  have hmlen : m.length = l.length := hp.length_eq
  have hlpos : 0 < l.length := List.length_pos.mpr hne
  simp only [median_u8, ← hm, hmlen]
  by_cases hpar : l.length % 2 = 0
  · rw [if_pos hpar, if_pos hpar]
    have ha256 : m.getD (l.length / 2 - 1) 0 < 256 :=
      h8 _ (hp.subset (getD_mem_of_lt m 0 _ (by omega)))
    have hb256 : m.getD (l.length / 2) 0 < 256 :=
      h8 _ (hp.subset (getD_mem_of_lt m 0 _ (by omega)))
    rw [Nat.mod_eq_of_lt (by omega)]
  · rw [if_neg hpar, if_neg hpar]

/-- The f32 median on a NaN-free buffer: the unwrap never fires and the
median is the exact middle (odd) or exact half-sum of the two middles
(even) of any sorted permutation. -/
theorem median_f32_eq (q : List ℚ) (hne : q ≠ []) (m : List ℚ) (hp : m.Perm q)
    (hs : m.Sorted (· ≤ ·)) :
    median_f32 (q.map F32.val) = some (F32.val (if q.length % 2 = 0 then
      (m.getD (q.length / 2 - 1) 0 + m.getD (q.length / 2) 0) / 2
    else m.getD (q.length / 2) 0)) := by
  have hm : m = q.insertionSort (· ≤ ·) :=
    List.eq_of_perm_of_sorted (hp.trans (List.perm_insertionSort (· ≤ ·) q).symm) hs
      (List.sorted_insertionSort (· ≤ ·) q)
  have hmlen : m.length = q.length := hp.length_eq
  have hqpos : 0 < q.length := List.length_pos.mpr hne
  rw [median_f32, sortM_map_val, ← hm]
  simp only [Option.bind_eq_bind, Option.some_bind]
  have hmaplen : (m.map F32.val).length = q.length := by simp [hmlen]
  simp only [hmaplen]
  by_cases hpar : q.length % 2 = 0
  · rw [if_pos hpar, if_pos hpar]
    rw [getD_map_val m _ (by omega), getD_map_val m _ (by omega)]
    rfl
  · rw [if_neg hpar, if_neg hpar]
    rw [getD_map_val m _ (by omega)]
    rfl

theorem sortM_total_of_no_nan (l : List F32) (hn : F32.nan ∉ l) :
    ∃ q : List ℚ, l = q.map F32.val ∧
      sortM l = some ((q.insertionSort (· ≤ ·)).map F32.val) := by
  induction l with
  | nil => exact ⟨[], rfl, rfl⟩
  | cons x xs ih =>
    have hx : x ≠ F32.nan := fun hc => hn (by simp [hc])
    have hxs : F32.nan ∉ xs := fun hc => hn (by simp [hc])
    obtain ⟨q, hq, _⟩ := ih hxs
    cases x with
    | nan => exact absurd rfl hx
    | val a =>
      refine ⟨a :: q, by simp [hq], ?_⟩
      rw [show F32.val a :: xs = (a :: q).map F32.val by simp [hq]]
      exact sortM_map_val (a :: q)

theorem sortInsertM_nan_left (m : List F32) (hm : m ≠ []) : sortInsertM F32.nan m = none := by
  cases m with
  | nil => exact absurd rfl hm
  | cons y ys => cases y <;> rfl

/-- With at least two samples, every sample is compared at least once, so
a NaN anywhere makes the comparator unwrap panic. -/
theorem sortM_none_of_nan (l : List F32) (h2 : 2 ≤ l.length) (hn : F32.nan ∈ l) :
    sortM l = none := by
  induction l with
  | nil => simp at h2
  | cons x xs ih =>
    by_cases hx : F32.nan ∈ xs
    · by_cases h2x : 2 ≤ xs.length
      · have hxs := ih h2x hx
        simp [sortM, hxs]
      · have hxs1 : xs = [F32.nan] := by
          cases xs with
          | nil => simp at hx
          | cons y ys =>
            cases ys with
            | nil =>
              have hy : y = F32.nan := (List.mem_singleton.mp hx).symm
              rw [hy]
            | cons z zs =>
              simp at h2x
        subst hxs1
        cases x <;> rfl
    · have hxn : x = F32.nan := by
        rcases List.mem_cons.mp hn with h | h
        · exact h.symm
        · exact absurd h hx
      subst hxn
      obtain ⟨q, hq, hsort⟩ := sortM_total_of_no_nan xs hx
      have hlen : xs.length = q.length := by
        rw [hq]
        simp
      have hql : 1 ≤ q.length := by
        simp only [List.length_cons] at h2
        omega
      have hne2 : (q.insertionSort (· ≤ ·)).map F32.val ≠ [] := by
        have hl : ((q.insertionSort (· ≤ ·)).map F32.val).length = q.length := by
          simp [(List.perm_insertionSort (· ≤ ·) q).length_eq]
        intro hc
        rw [hc] at hl
        simp only [List.length_nil] at hl
        omega
      simp [sortM, hsort, sortInsertM_nan_left _ hne2]

/-- Claim C2: for every non-empty sample buffer, the median is read off a
full sort of a copy of the samples: the single middle element for odd
lengths, the average of the two middle elements for even lengths
(truncated for 8-bit, exact for floating-point); one boolean per sample,
in buffer order, equal to sample >= median, is emitted; the median of the
8-bit buffer [1,2,3,4] is 2 and of the floating-point buffer [1,2,3,4]
is 5/2.  The sorted order is described by an arbitrary sorted
permutation m of the buffer. -/
theorem median_hash_spec :
    (∀ (l : List Nat), l ≠ [] → (∀ x ∈ l, x < 256) →
      ∀ m : List Nat, m.Perm l → m.Sorted (· ≤ ·) →
      median_u8 l = (if l.length % 2 = 0 then
        (m.getD (l.length / 2 - 1) 0 + m.getD (l.length / 2) 0) / 2
      else m.getD (l.length / 2) 0) ∧
      median_hash_u8 l = l.map (fun x => decide (median_u8 l ≤ x))) ∧
    (∀ (q : List ℚ), q ≠ [] → ∀ m : List ℚ, m.Perm q → m.Sorted (· ≤ ·) →
      median_f32 (q.map F32.val) = some (F32.val (if q.length % 2 = 0 then
        (m.getD (q.length / 2 - 1) 0 + m.getD (q.length / 2) 0) / 2
      else m.getD (q.length / 2) 0)) ∧
      median_hash_f32 (q.map F32.val) = some (q.map (fun x =>
        decide ((if q.length % 2 = 0 then
          (m.getD (q.length / 2 - 1) 0 + m.getD (q.length / 2) 0) / 2
        else m.getD (q.length / 2) 0) ≤ x)))) ∧
    median_u8 [1, 2, 3, 4] = 2 ∧
    median_f32 ([1, 2, 3, 4].map F32.val) = some (F32.val (5 / 2)) := by
  refine ⟨?_, ?_, by decide, ?_⟩
  · intro l hne h8 m hp hs
    exact ⟨median_u8_eq l hne h8 m hp hs, rfl⟩
  · intro q hne m hp hs
    refine ⟨median_f32_eq q hne m hp hs, ?_⟩
    rw [median_hash_f32, median_f32_eq q hne m hp hs]
    simp [List.map_map, Function.comp, geF32]
  · rw [show ([1, 2, 3, 4] : List ℚ) = [1, 2, 3, 4] from rfl]
    rw [median_f32, sortM_map_val]
    norm_num [List.insertionSort, List.orderedInsert, addF32, halfF32, List.getD, Option.bind]

/-- Witness for C2 on the spec scenario buffer [1,2,3,4]. -/
theorem median_hash_spec_witness :
    median_u8 [1, 2, 3, 4] =
      (if ([1, 2, 3, 4] : List Nat).length % 2 = 0 then
        (List.getD [1, 2, 3, 4] (([1, 2, 3, 4] : List Nat).length / 2 - 1) 0 +
          List.getD [1, 2, 3, 4] (([1, 2, 3, 4] : List Nat).length / 2) 0) / 2
      else List.getD [1, 2, 3, 4] (([1, 2, 3, 4] : List Nat).length / 2) 0) ∧
    median_hash_u8 [1, 2, 3, 4] =
      [1, 2, 3, 4].map (fun x => decide (median_u8 [1, 2, 3, 4] ≤ x)) :=
  median_hash_spec.1 [1, 2, 3, 4] (by decide) (by decide) [1, 2, 3, 4]
    (List.Perm.refl _) (by decide)

/-- Counterexample to claim C10 as stated: a singleton buffer containing
only NaN does not abort — the sort never calls the comparator on a
one-element slice, the median is NaN, NaN >= NaN is false, and the hash
is the well-defined sequence [false]. -/
theorem median_hash_f32_nan_singleton : median_hash_f32 [F32.nan] = some [false] := by
  decide

/-- Claim C10 (amended): for every non-empty NaN-free f32 buffer the
partial_cmp(..).unwrap() never fails and median_hash_f32 returns a
well-defined boolean sequence; a buffer of length at least two containing
a NaN sample aborts (none); a singleton NaN buffer, however, does not
panic and hashes to [false]. -/
theorem median_f32_nan_spec :
    (∀ l : List F32, l ≠ [] → F32.nan ∉ l → (median_hash_f32 l).isSome) ∧
    (∀ l : List F32, 2 ≤ l.length → F32.nan ∈ l → median_hash_f32 l = none) ∧
    median_hash_f32 [F32.nan] = some [false] := by
  refine ⟨?_, ?_, by decide⟩
  · intro l hne hn
    obtain ⟨q, hq, hsort⟩ := sortM_total_of_no_nan l hn
    rw [median_hash_f32, median_f32, hsort]
    simp only [Option.bind_eq_bind, Option.some_bind]
    split <;> simp
  · intro l h2 hn
    rw [median_hash_f32, median_f32, sortM_none_of_nan l h2 hn]
    rfl

/-- Witness for C10: a NaN-free singleton succeeds, a two-element buffer
containing NaN panics. -/
theorem median_f32_nan_spec_witness :
    (median_hash_f32 [F32.val 1]).isSome ∧
    median_hash_f32 [F32.nan, F32.val 0] = none :=
  ⟨median_f32_nan_spec.1 [F32.val 1] (by decide) (by decide),
   median_f32_nan_spec.2.1 [F32.nan, F32.val 0] (by decide) (by decide)⟩

/-! Shift-invariance machinery (claim C8): gradient hashes only observe
the relative order of samples, so any order-isomorphic relabelling of the
samples leaves them unchanged; and in exact arithmetic the integer mean
and median shift by exactly the applied offset. -/

theorem chunks_zero {α : Type} (l : List α) : chunks 0 l = [] := by
  rw [chunks]
  simp

theorem chunks_map {α β : Type} (f : α → β) (n : Nat) (l : List α) :
    chunks n (l.map f) = (chunks n l).map (List.map f) := by
  by_cases hl : l = []
  · subst hl
    rw [List.map_nil, chunks_nil, chunks_nil, List.map_nil]
  · by_cases hn : n = 0
    · subst hn
      rw [chunks_zero, chunks_zero, List.map_nil]
    · have hml : l.map f ≠ [] := by simp [hl]
      rw [chunks_cons n l hn hl, chunks_cons n (l.map f) hn hml, List.map_cons,
        ← List.map_take, ← List.map_drop, chunks_map f n (l.drop n)]
termination_by l.length
decreasing_by
  simp only [List.length_drop]
  have hlp : 0 < l.length := List.length_pos.mpr hl
  have hnp : 0 < n := Nat.pos_of_ne_zero hn
  omega

theorem stepBy_map {α β : Type} (f : α → β) (n : Nat) (l : List α) :
    stepBy n (l.map f) = (stepBy n l).map f := by
  cases l with
  | nil => rw [List.map_nil, stepBy_nil, stepBy_nil, List.map_nil]
  | cons x xs =>
    rw [List.map_cons, stepBy_cons, stepBy_cons, List.map_cons,
      ← List.map_drop, stepBy_map f n (xs.drop (n - 1))]
termination_by l.length
decreasing_by
  simp only [List.length_drop, List.length_cons]
  omega

section ShiftInvariance

variable {α β : Type} [LT α] [DecidableRel ((· < ·) : α → α → Prop)]
variable [LT β] [DecidableRel ((· < ·) : β → β → Prop)]

theorem gradient_hash_impl_map (f : α → β) (hf : ∀ a b : α, f a < f b ↔ a < b)
    (l : List α) : gradient_hash_impl (l.map f) = gradient_hash_impl l := by
  rw [gradient_hash_impl, gradient_hash_impl, ← List.map_drop, List.zip_map, List.map_map]
  apply List.map_congr_left
  intro p _
  simp [Function.comp, hf]

theorem gradient_hash_map (f : α → β) (hf : ∀ a b : α, f a < f b ↔ a < b)
    (l : List α) (s : Nat) : gradient_hash (l.map f) s = gradient_hash l s := by
  rw [gradient_hash, gradient_hash, chunks_map, List.flatMap_map]
  apply flatMap_congr
  intro c _
  exact gradient_hash_impl_map f hf c

theorem vert_gradient_hash_map (f : α → β) (hf : ∀ a b : α, f a < f b ↔ a < b)
    (l : List α) (s : Nat) : vert_gradient_hash (l.map f) s = vert_gradient_hash l s := by
  rw [vert_gradient_hash, vert_gradient_hash, List.flatMap_map, List.flatMap_map]
  apply flatMap_congr
  intro j _
  rw [← List.map_drop, stepBy_map]
  exact gradient_hash_impl_map f hf _

end ShiftInvariance

theorem sum_map_add (l : List Nat) (c : Nat) :
    (l.map (fun x => x + c)).sum = l.sum + l.length * c := by
  induction l with
  | nil => simp
  | cons x xs ih =>
    simp only [List.map_cons, List.sum_cons, List.length_cons, ih]
    ring

theorem sum_map_add_rat (l : List ℚ) (c : ℚ) :
    (l.map (fun x => x + c)).sum = l.sum + l.length * c := by
  induction l with
  | nil => simp
  | cons x xs ih =>
    simp only [List.map_cons, List.sum_cons, List.length_cons, ih]
    push_cast
    ring

/-- The exact statement of the u8 mean hash in the absence of overflow
(shared by claims C1 and C8). -/
theorem mean_hash_u8_exact (l : List Nat) (hne : l ≠ []) (h8 : ∀ x ∈ l, x < 256)
    (hsum : l.sum < U32) (hlen : l.length < U32) :
    mean_hash_u8 l = l.map (fun x => decide (l.sum / l.length ≤ x)) := by
  have hlpos : 0 < l.length := List.length_pos.mpr hne
  have hle : l.sum ≤ l.length * 255 := by
    have hs := List.sum_le_card_nsmul l 255 (fun x hx => by have := h8 x hx; omega)
    simpa [smul_eq_mul] using hs
  have hmean : l.sum / l.length ≤ 255 := by
    have h255 : l.length * 255 / l.length = 255 := Nat.mul_div_cancel_left 255 hlpos
    calc l.sum / l.length ≤ l.length * 255 / l.length := Nat.div_le_div_right hle
    _ = 255 := h255
  simp only [mean_hash_u8]
  rw [Nat.mod_eq_of_lt hsum, Nat.mod_eq_of_lt hlen, Nat.mod_eq_of_lt (by omega)]

theorem mean_hash_u8_shift (l : List Nat) (c : Nat) (hne : l ≠ [])
    (h8 : ∀ x ∈ l, x + c < 256) (hsum : (l.map (fun x => x + c)).sum < U32)
    (hlen : l.length < U32) :
    mean_hash_u8 (l.map (fun x => x + c)) = mean_hash_u8 l := by
  have hlpos : 0 < l.length := List.length_pos.mpr hne
  have hsmap := sum_map_add l c
  have h8l : ∀ x ∈ l, x < 256 := fun x hx => by have := h8 x hx; omega
  have h8m : ∀ y ∈ l.map (fun x => x + c), y < 256 := by
    intro y hy
    obtain ⟨x, hx, rfl⟩ := List.mem_map.mp hy
    exact h8 x hx
  have hsl : l.sum < U32 := by omega
  have hnem : l.map (fun x => x + c) ≠ [] := by simp [hne]
  rw [mean_hash_u8_exact _ hnem h8m hsum (by simpa using hlen),
    mean_hash_u8_exact l hne h8l hsl hlen]
  rw [List.map_map]
  apply List.map_congr_left
  intro x _
  have hdiv : (l.map (fun x => x + c)).sum / (l.map (fun x => x + c)).length =
      l.sum / l.length + c := by
    rw [hsmap, List.length_map, Nat.add_mul_div_left _ _ hlpos]
  simp only [Function.comp, hdiv]
  simp [Nat.add_le_add_iff_right]

theorem insertionSort_map_add (l : List Nat) (c : Nat) :
    (l.map (fun x => x + c)).insertionSort (· ≤ ·) =
      (l.insertionSort (· ≤ ·)).map (fun x => x + c) :=
  List.eq_of_perm_of_sorted
    ((List.perm_insertionSort _ _).trans
      (((List.perm_insertionSort (· ≤ ·) l).map _).symm))
    (List.sorted_insertionSort _ _)
    (List.Pairwise.map _ (fun a b hab => Nat.add_le_add_right hab c)
      (List.sorted_insertionSort _ l))

theorem getD_map_add (m : List Nat) (c i : Nat) (hi : i < m.length) :
    (m.map (fun x => x + c)).getD i 0 = m.getD i 0 + c := by
  have hi2 : i < (m.map (fun x => x + c)).length := by simpa using hi
  rw [List.getD_eq_getElem _ _ hi2, List.getD_eq_getElem m 0 hi]
  simp

theorem median_u8_add (l : List Nat) (c : Nat) (hne : l ≠ [])
    (h8 : ∀ x ∈ l, x + c < 256) :
    median_u8 (l.map (fun x => x + c)) = median_u8 l + c := by
  have hlpos : 0 < l.length := List.length_pos.mpr hne
  have hml : (l.insertionSort (· ≤ ·)).length = l.length :=
    (List.perm_insertionSort (· ≤ ·) l).length_eq
  have hsub : ∀ y ∈ l.insertionSort (· ≤ ·), y ∈ l := fun y hy =>
    (List.perm_insertionSort (· ≤ ·) l).subset hy
  simp only [median_u8, insertionSort_map_add, List.length_map, hml]
  by_cases hpar : l.length % 2 = 0
  · rw [if_pos hpar, if_pos hpar]
    have hb1 : l.length / 2 - 1 < (l.insertionSort (· ≤ ·)).length := by omega
    have hb2 : l.length / 2 < (l.insertionSort (· ≤ ·)).length := by omega
    rw [getD_map_add _ c _ hb1, getD_map_add _ c _ hb2]
    have ha := h8 _ (hsub _ (getD_mem_of_lt _ 0 _ hb1))
    have hb := h8 _ (hsub _ (getD_mem_of_lt _ 0 _ hb2))
    omega
  · rw [if_neg hpar, if_neg hpar]
    have hb2 : l.length / 2 < (l.insertionSort (· ≤ ·)).length := by omega
    rw [getD_map_add _ c _ hb2]

theorem median_hash_u8_shift (l : List Nat) (c : Nat) (hne : l ≠ [])
    (h8 : ∀ x ∈ l, x + c < 256) :
    median_hash_u8 (l.map (fun x => x + c)) = median_hash_u8 l := by
  simp only [median_hash_u8, median_u8_add l c hne h8, List.map_map]
  apply List.map_congr_left
  intro x _
  simp [Function.comp, Nat.add_le_add_iff_right]

theorem mean_hash_f32_shift (q : List ℚ) (c : ℚ) :
    mean_hash_f32 (q.map (fun x => x + c)) = mean_hash_f32 q := by
  by_cases hq : q = []
  · subst hq
    rfl
  · have hlpos : 0 < q.length := List.length_pos.mpr hq
    have hL : ((q.length : ℚ)) ≠ 0 := by
      exact_mod_cast Nat.pos_iff_ne_zero.mp hlpos
    simp only [mean_hash_f32, List.length_map, sum_map_add_rat, List.map_map]
    apply List.map_congr_left
    intro x _
    have hdiv : (q.sum + (q.length : ℚ) * c) / (q.length : ℚ) = q.sum / (q.length : ℚ) + c := by
      field_simp
      ring
    simp only [Function.comp, hdiv]
    simp [add_le_add_iff_right]

theorem getD_map_add_rat (m : List ℚ) (c : ℚ) (i : Nat) (hi : i < m.length) :
    (m.map (fun x => x + c)).getD i 0 = m.getD i 0 + c := by
  have hi2 : i < (m.map (fun x => x + c)).length := by simpa using hi
  rw [List.getD_eq_getElem _ _ hi2, List.getD_eq_getElem m 0 hi]
  simp

theorem median_hash_f32_shift (q : List ℚ) (c : ℚ) (hne : q ≠ []) :
    median_hash_f32 ((q.map (fun x => x + c)).map F32.val) =
      median_hash_f32 (q.map F32.val) := by
  have hqpos : 0 < q.length := List.length_pos.mpr hne
  set m := q.insertionSort (· ≤ ·) with hmdef
  have hperm : m.Perm q := List.perm_insertionSort _ q
  have hsort : m.Sorted (· ≤ ·) := List.sorted_insertionSort _ q
  have hml : m.length = q.length := hperm.length_eq
  have hperm2 : (m.map (fun x => x + c)).Perm (q.map (fun x => x + c)) := hperm.map _
  have hsort2 : (m.map (fun x => x + c)).Sorted (· ≤ ·) :=
    List.Pairwise.map _ (fun a b hab => add_le_add_right hab c) hsort
  have hne2 : q.map (fun x => x + c) ≠ [] := by simp [hne]
  have hmed1 := median_f32_eq q hne m hperm hsort
  have hmed2 := median_f32_eq (q.map (fun x => x + c)) hne2
    (m.map (fun x => x + c)) hperm2 hsort2
  rw [median_hash_f32, median_hash_f32, hmed1, hmed2]
  simp only [List.length_map, Option.map_some', List.map_map]
  congr 1
  by_cases hpar : q.length % 2 = 0
  · rw [if_pos hpar, if_pos hpar]
    have hb1 : q.length / 2 - 1 < m.length := by omega
    have hb2 : q.length / 2 < m.length := by omega
    rw [getD_map_add_rat m c _ hb1, getD_map_add_rat m c _ hb2]
    apply List.map_congr_left
    intro x _
    simp only [Function.comp, geF32]
    have harith : (m.getD (q.length / 2 - 1) 0 + c + (m.getD (q.length / 2) 0 + c)) / 2 =
        (m.getD (q.length / 2 - 1) 0 + m.getD (q.length / 2) 0) / 2 + c := by
      ring
    rw [harith]
    simp [add_le_add_iff_right]
  · rw [if_neg hpar, if_neg hpar]
    have hb2 : q.length / 2 < m.length := by omega
    rw [getD_map_add_rat m c _ hb2]
    apply List.map_congr_left
    intro x _
    simp only [Function.comp, geF32]
    simp [add_le_add_iff_right]

/-- Counterexample to claim C8 as stated: a uniform additive brightness
shift applied to 8-bit samples wraps at the type boundary; shifting
[254, 255] by 1 yields [255, 0] and flips the gradient boolean, so the
gradient hash is not invariant under every shift applied to all samples
of an 8-bit buffer.  (In exact, non-wrapping arithmetic the gradient hash
is invariant — but then mean and median hashes are invariant as well, so
the second half of the claim fails instead; see the amended theorem.) -/
theorem gradient_hash_wrap_shift_counterexample :
    gradient_hash ([254, 255].map (fun x => (x + 1) % 256)) 2 ≠
      gradient_hash ([254, 255] : List Nat) 2 := by
  simp [gradient_hash, chunks, gradient_hash_impl]

/-- Claim C8 (amended): gradient_hash and vert_gradient_hash are
invariant under every exact (non-wrapping) uniform additive shift, for
either sample domain; however, under the same exact shifts the mean and
median hashes are invariant too — with truncating integer arithmetic the
u8 mean and median shift by exactly the offset — so mean/median
brightness sensitivity arises only through the 8-bit wrap (or float
rounding), under which the gradient hashes can change as well (see the
counterexample); wrapping shifts do change mean and median hashes. -/
theorem shift_invariance_spec (l : List Nat) (q : List ℚ) (s cn : Nat) (cq : ℚ) :
    gradient_hash (l.map (fun x => x + cn)) s = gradient_hash l s ∧
    vert_gradient_hash (l.map (fun x => x + cn)) s = vert_gradient_hash l s ∧
    gradient_hash (q.map (fun x => x + cq)) s = gradient_hash q s ∧
    vert_gradient_hash (q.map (fun x => x + cq)) s = vert_gradient_hash q s ∧
    (l ≠ [] → (∀ x ∈ l, x + cn < 256) → (l.map (fun x => x + cn)).sum < U32 →
      l.length < U32 → mean_hash_u8 (l.map (fun x => x + cn)) = mean_hash_u8 l) ∧
    (l ≠ [] → (∀ x ∈ l, x + cn < 256) →
      median_hash_u8 (l.map (fun x => x + cn)) = median_hash_u8 l) ∧
    mean_hash_f32 (q.map (fun x => x + cq)) = mean_hash_f32 q ∧
    (q ≠ [] → median_hash_f32 ((q.map (fun x => x + cq)).map F32.val) =
      median_hash_f32 (q.map F32.val)) ∧
    mean_hash_u8 ([0, 255].map (fun x => (x + 1) % 256)) ≠ mean_hash_u8 [0, 255] ∧
    median_hash_u8 ([0, 255].map (fun x => (x + 1) % 256)) ≠ median_hash_u8 [0, 255] := by
  refine ⟨gradient_hash_map _ (fun a b => by omega) l s,
    vert_gradient_hash_map _ (fun a b => by omega) l s,
    gradient_hash_map _ (fun a b => add_lt_add_iff_right cq) q s,
    vert_gradient_hash_map _ (fun a b => add_lt_add_iff_right cq) q s,
    fun hne h8 hsum hlen => mean_hash_u8_shift l cn hne h8 hsum hlen,
    fun hne h8 => median_hash_u8_shift l cn hne h8,
    mean_hash_f32_shift q cq,
    fun hne => median_hash_f32_shift q cq hne,
    by decide, by decide⟩

/-- Witness for C8 at concrete inputs. -/
theorem shift_invariance_spec_witness :
    gradient_hash ([10, 20].map (fun x => x + 5)) 2 = gradient_hash ([10, 20] : List Nat) 2 ∧
    mean_hash_u8 ([10, 20].map (fun x => x + 5)) = mean_hash_u8 [10, 20] ∧
    median_hash_u8 ([10, 20].map (fun x => x + 5)) = median_hash_u8 [10, 20] := by
  have h := shift_invariance_spec [10, 20] [1, 2] 2 5 3
  exact ⟨h.1, h.2.2.2.2.1 (by decide) (by decide) (by decide) (by decide),
    h.2.2.2.2.2.1 (by decide) (by decide)⟩

/-- Claim C9: with algorithm Blockhash, hash_image returns from the
Blockhash branch before to_grayscale, resize_dimensions and
calc_hash_vals are ever invoked — the block hash is applied directly to
the (possibly pre-blurred) image at the configured width, height and bit
order — and the unreachable (Blockhash, _) arm of the final match is
never executed for any algorithm variant. -/
theorem hash_image_blockhash_spec {Img R : Type} (ctxt : HashCtxt Img)
    (blockhashFn : Img → Nat → Nat → BitOrder → R)
    (from_bools : List Bool → BitOrder → R) (image : Img) :
    hash_image ctxt blockhashFn from_bools HashAlg.Blockhash image =
      (Except.ok (blockhashFn (ctxt.gauss_preproc image).get ctxt.width ctxt.height
        ctxt.bit_order), [CallTag.gaussPreproc, CallTag.blockhashCall]) ∧
    CallTag.toGrayscale ∉ (hash_image ctxt blockhashFn from_bools HashAlg.Blockhash image).2 ∧
    CallTag.resizeDims ∉ (hash_image ctxt blockhashFn from_bools HashAlg.Blockhash image).2 ∧
    CallTag.calcHashVals ∉ (hash_image ctxt blockhashFn from_bools HashAlg.Blockhash image).2 ∧
    (∀ alg : HashAlg, (hash_image ctxt blockhashFn from_bools alg image).1 ≠
      Except.error HashErr.blockhashUnreachable) := by
  have hbh : hash_image ctxt blockhashFn from_bools HashAlg.Blockhash image =
      (Except.ok (blockhashFn (ctxt.gauss_preproc image).get ctxt.width ctxt.height
        ctxt.bit_order), [CallTag.gaussPreproc, CallTag.blockhashCall]) := by
    rw [hash_image]
    cases hg : ctxt.gauss_preproc image <;> simp [hg, CowImage.get]
  refine ⟨hbh, by rw [hbh]; simp, by rw [hbh]; simp, by rw [hbh]; simp, ?_⟩
  intro alg
  cases alg
  case Blockhash =>
    rw [hbh]
    simp
  all_goals {
    rw [hash_image]
    simp only [reduceIte, resize_dimensions]
    cases ctxt.calc_hash_vals (ctxt.to_grayscale (ctxt.gauss_preproc image).get) _ _ with
    | Floats fs => cases hmf : median_hash_f32 (fs.map F32.val) <;> simp [hmf]
    | Bytes bs => simp
  }

end ImgHash
